import Mathlib

/-!
Verification development for the `macspace` CLI (src/macspace/app.py):
a workspace manager persisting `{"workspaces": [{"name": ..., "apps": [...]}]}`
in a JSON file. Each Python command function is embedded as a pure Lean
function on an explicit document value; the persisted file is modelled as an
explicit state, and printing is modelled as a list of structured messages.
-/

set_option autoImplicit false

namespace MacSpace

/-- A workspace, mirroring the Python dict `{"name": <str>, "apps": [<str>]}`. -/
structure Workspace where
  name : String
  apps : List String
deriving DecidableEq, Repr

/-- The store document, mirroring `{"workspaces": [...]}`. -/
structure Doc where
  workspaces : List Workspace
deriving DecidableEq, Repr

/-- The initial content written by `ensure_config`: `{"workspaces": []}`. -/
def emptyDoc : Doc := ⟨[]⟩

/-! ### CSV parsing (`args.apps.split(",")`, `a.strip()`, truthiness filter) -/

/-- Python whitespace characters recognised by `str.strip()` (ASCII range:
space, tab, newline, carriage return, vertical tab, form feed). -/
def isPySpace (c : Char) : Bool :=
  c = ' ' || c = '\t' || c = '\n' || c = '\r' || c = Char.ofNat 11 || c = Char.ofNat 12

/-- Python `str.split(sep)` on a single-character separator, as a function on
character lists: every occurrence of the separator ends a field, empty
fields are kept, and the empty string yields one empty field. -/
def splitChar (sep : Char) : List Char → List (List Char)
  | [] => [[]]
  | c :: cs =>
    match splitChar sep cs with
    | [] => if c = sep then [[], []] else [[c]]
    | p :: ps => if c = sep then [] :: p :: ps else (c :: p) :: ps

/-- Python `str.strip()` on a character list: drop leading and trailing whitespace. -/
def stripChars (l : List Char) : List Char :=
  ((l.dropWhile isPySpace).reverse.dropWhile isPySpace).reverse

/-- Lean-string form of `strip`. -/
def pyStrip (s : String) : String := ⟨stripChars s.toList⟩

/-- Lean-string form of the comma split. -/
def pySplit (s : String) : List String :=
  (splitChar ',' s.toList).map (fun l => ⟨l⟩)

/-- The app-list parse used by `cmd_create`, `cmd_add` and `cmd_remove`:
`[a.strip() for a in s.split(",") if a.strip()]` (an entry is kept exactly
when its stripped form is non-empty, and the stripped form is kept). -/
def parseApps (s : String) : List String :=
  (pySplit s).filterMap (fun a => if pyStrip a = "" then none else some (pyStrip a))

/-- The spec-side description of the same parse, for the refinement claim:
the comma-separated entries, each trimmed, with entries empty after
trimming dropped, in their original order. -/
def specParseApps (s : String) : List String :=
  ((pySplit s).map pyStrip).filter (fun t => t ≠ "")

/-! ### Registry operations -/

/-- Embeds `find_workspace(data, name)`: linear scan, first exact name match. -/
def find_workspace : List Workspace → String → Option Workspace
  | [], _ => none
  | w :: ws, n => if w.name = n then some w else find_workspace ws n

/-- Structured stdout messages (one constructor per `print` site). -/
inductive Msg where
  | alreadyExists (n : String)
  | created (n : String)
  | installedDetected (apps : List String)
  | seededApps (apps : List String)
  | wsNotFound (n : String)
  | deleted (n : String)
  | addedApps (apps : List String)
  | noNewApps
  | removedApps (apps : List String)
  | noMatchingApps
  | openingWorkspace (n : String)
  | noAppsToOpen (n : String)
  | opening (app : String)
  | openFailed (app : String)
  | attempting (app : String)
  | couldNotOpen (app : String)
deriving DecidableEq, Repr

/-- Result of one mutating command: the document after the command, whether
`save_data` was invoked, and the messages printed. -/
structure CmdResult where
  doc : Doc
  saved : Bool
  out : List Msg
deriving DecidableEq, Repr

/-- Replace the apps of the first workspace named `n` (the Python commands
mutate the dict returned by `find_workspace`, which is the first match). -/
def updateWs (n : String) (f : List String → List String) : List Workspace → List Workspace
  | [] => []
  | w :: ws => if w.name = n then { w with apps := f w.apps } :: ws else w :: updateWs n f ws

/-- The loop of `cmd_add`: for each app, append it to the current list if not
already present; return the final list and the apps actually added, in order. -/
def addLoop : List String → List String → List String × List String
  | cur, [] => (cur, [])
  | cur, a :: as =>
    if a ∈ cur then addLoop cur as
    else
      let r := addLoop (cur ++ [a]) as
      (r.1, a :: r.2)

/-- Python `list.remove(x)`: delete the first element equal to `x`. -/
def pyRemove {α : Type} [DecidableEq α] : List α → α → List α
  | [], _ => []
  | y :: ys, x => if y = x then ys else y :: pyRemove ys x

/-- The loop of `cmd_remove`: for each app, if present remove its first
occurrence; return the final list and the apps actually removed, in order. -/
def removeLoop : List String → List String → List String × List String
  | cur, [] => (cur, [])
  | cur, a :: as =>
    if a ∈ cur then
      let r := removeLoop (pyRemove cur a) as
      (r.1, a :: r.2)
    else removeLoop cur as

/-- Embeds `cmd_create`: report and stop on a duplicate name; otherwise append a new
workspace seeded from the optional CSV (Python truthiness: `None` or the
empty string seed nothing) and save. `installed` is the App Discovery result,
used only for the feedback printout. -/
def cmd_create (doc : Doc) (n : String) (csv : Option String) (installed : List String) : CmdResult :=
  match find_workspace doc.workspaces n with
  | some _ => ⟨doc, false, [.alreadyExists n]⟩
  | none =>
    let apps : List String :=
      match csv with
      | none => []
      | some s => if s = "" then [] else parseApps s
    let ws : Workspace := ⟨n, apps⟩
    ⟨⟨doc.workspaces ++ [ws]⟩, true,
      [.created n, .installedDetected installed] ++
        (if apps.isEmpty then [] else [.seededApps apps])⟩

/-- Embeds `cmd_delete`: remove the workspace returned by `find_workspace` via
`list.remove` and save; report not-found when absent. -/
def cmd_delete (doc : Doc) (n : String) : CmdResult :=
  match find_workspace doc.workspaces n with
  | none => ⟨doc, false, [.wsNotFound n]⟩
  | some w => ⟨⟨pyRemove doc.workspaces w⟩, true, [.deleted n]⟩

/-- Embeds `cmd_add`: parse the CSV, append each app not already present to the
found workspace, save unconditionally, and report the apps actually added. -/
def cmd_add (doc : Doc) (n : String) (csv : String) : CmdResult :=
  match find_workspace doc.workspaces n with
  | none => ⟨doc, false, [.wsNotFound n]⟩
  | some w =>
    let r := addLoop w.apps (parseApps csv)
    ⟨⟨updateWs n (fun _ => r.1) doc.workspaces⟩, true,
      [if r.2.isEmpty then .noNewApps else .addedApps r.2]⟩

/-- Embeds `cmd_remove`: parse the CSV, remove each present app from the found
workspace, save unconditionally, and report the apps actually removed. -/
def cmd_remove (doc : Doc) (n : String) (csv : String) : CmdResult :=
  match find_workspace doc.workspaces n with
  | none => ⟨doc, false, [.wsNotFound n]⟩
  | some w =>
    let r := removeLoop w.apps (parseApps csv)
    ⟨⟨updateWs n (fun _ => r.1) doc.workspaces⟩, true,
      [if r.2.isEmpty then .noMatchingApps else .removedApps r.2]⟩

/-! ### The `open` workflow -/

/-- Result of `cmd_open`: the sequence of apps passed to the Launcher
(`open_app` calls, in call order) and the messages printed. -/
structure OpenResult where
  attempts : List String
  out : List Msg
deriving DecidableEq, Repr

/-- The per-app loop of `cmd_open`. `launch i` is the outcome of the `i`-th
Launcher invocation; both the installed and the not-installed branch call
the Launcher, and a failure only adds a message. -/
def openLoop (installed : List String) (launch : Nat → Bool) : Nat → List String → OpenResult
  | _, [] => ⟨[], []⟩
  | i, app :: rest =>
    let ok := launch i
    let msgs : List Msg :=
      if app ∈ installed then
        .opening app :: (if ok then [] else [.openFailed app])
      else
        .attempting app :: (if ok then [] else [.couldNotOpen app])
    let r := openLoop installed launch (i + 1) rest
    ⟨app :: r.attempts, msgs ++ r.out⟩

/-- Embeds `cmd_open`: look up the workspace, stop on not-found or an empty app
list, otherwise fetch discovery once and run the launch loop. -/
def cmd_open (doc : Doc) (n : String) (installed : List String) (launch : Nat → Bool) : OpenResult :=
  match find_workspace doc.workspaces n with
  | none => ⟨[], [.wsNotFound n]⟩
  | some w =>
    if w.apps.isEmpty then ⟨[], [.noAppsToOpen n]⟩
    else
      let r := openLoop installed launch 0 w.apps
      ⟨r.attempts, .openingWorkspace w.name :: r.out⟩

/-! ### Persistent store (`ensure_config`, `load_data`, `save_data`)

The commands serialize with `json.dump` and parse with `json.load`, so the
file's information content is a JSON value; `FileContent.invalid` stands for
text the JSON parser rejects (`json.load` raises, nothing in `load_data`
catches it). -/

/-- JSON values, the data model of `json.dump` / `json.load`. -/
inductive Json where
  | null
  | bool (b : Bool)
  | num (n : Int)
  | str (s : String)
  | arr (xs : List Json)
  | obj (fields : List (String × Json))
deriving Repr

/-- The state of the persisted file: parsable content or unparsable text. -/
inductive FileContent where
  | valid (j : Json)
  | invalid (raw : String)

/-- The filesystem slot for `~/.macspace/workspaces.json` (`none`: absent). -/
abbrev FS := Option FileContent

/-- First value under key `k` in a JSON object field list. -/
def jsonLookup (fields : List (String × Json)) (k : String) : Option Json :=
  (fields.find? (fun p => p.1 == k)).map (fun p => p.2)

/-- Serialize a workspace the way `json.dump` sees the Python dict. -/
def wsToJson (w : Workspace) : Json :=
  .obj [("name", .str w.name), ("apps", .arr (w.apps.map .str))]

/-- Serialize a document. -/
def docToJson (d : Doc) : Json :=
  .obj [("workspaces", .arr (d.workspaces.map wsToJson))]

/-- Read a JSON value as a string, as the commands do via subscripting. -/
def jsonStr : Json → Option String
  | .str s => some s
  | _ => none

/-- Decode a list of JSON strings. -/
def decodeStrings : List Json → Option (List String)
  | [] => some []
  | j :: js =>
    match jsonStr j, decodeStrings js with
    | some s, some ss => some (s :: ss)
    | _, _ => none

/-- Decode one workspace: the shape `{"name": <str>, "apps": [<str>...]}`
the commands rely on when they subscript `w["name"]` and `w["apps"]`. -/
def wsFromJson (j : Json) : Option Workspace :=
  match j with
  | .obj fields =>
    match jsonLookup fields "name", jsonLookup fields "apps" with
    | some (.str n), some (.arr xs) => (decodeStrings xs).map (fun apps => ⟨n, apps⟩)
    | _, _ => none
  | _ => none

/-- Decode a list of workspaces. -/
def decodeWorkspaces : List Json → Option (List Workspace)
  | [] => some []
  | j :: js =>
    match wsFromJson j, decodeWorkspaces js with
    | some w, some ws => some (w :: ws)
    | _, _ => none

/-- Decode a document: the shape `{"workspaces": [...]}` the commands rely
on when they subscript `data["workspaces"]`. -/
def docFromJson (j : Json) : Option Doc :=
  match j with
  | .obj fields =>
    match jsonLookup fields "workspaces" with
    | some (.arr xs) => (decodeWorkspaces xs).map Doc.mk
    | _ => none
  | _ => none

/-- Embeds `ensure_config()`: create the file with `{"workspaces": []}` when it is
missing; an existing file, parsable or not, is left untouched. -/
def ensure_config (fs : FS) : FS :=
  match fs with
  | none => some (.valid (docToJson emptyDoc))
  | some c => some c

/-- Embeds `load_data()`: `ensure_config` then `json.load`. Unparsable content makes
`json.load` raise; `load_data` has no handler, so the error propagates and
the file is returned as it stands. -/
def load_data (fs : FS) : FS × Except String Json :=
  match ensure_config fs with
  | some (.valid j) => (some (.valid j), .ok j)
  | some (.invalid raw) => (some (.invalid raw), .error "json decode error")
  | none => (none, .error "unreachable")

/-- Embeds `save_data(data)`: `ensure_config` then overwrite the file with the
serialized document. -/
def save_data (d : Doc) (_fs : FS) : FS :=
  some (.valid (docToJson d))

/-- Composes `load_data` with the shape-decoding the commands perform on the
parsed value. -/
def loadDoc (fs : FS) : FS × Except String Doc :=
  let r := load_data fs
  match r.2 with
  | .error e => (r.1, .error e)
  | .ok j =>
    match docFromJson j with
    | some d => (r.1, .ok d)
    | none => (r.1, .error "document shape error")

/-! ### Command sequences and the no-duplicates invariant -/

/-- One CLI mutation, as dispatched by `main`. -/
inductive Op where
  | create (n : String) (csv : Option String)
  | add (n : String) (csv : String)
  | remove (n : String) (csv : String)
  | del (n : String)

/-- The document produced by one operation (discovery output irrelevant to
the document, so `cmd_create` gets an empty installed list). -/
def runOp (d : Doc) : Op → Doc
  | .create n csv => (cmd_create d n csv []).doc
  | .add n csv => (cmd_add d n csv).doc
  | .remove n csv => (cmd_remove d n csv).doc
  | .del n => (cmd_delete d n).doc

/-- The document after a sequence of operations. -/
def runOps (d : Doc) (ops : List Op) : Doc :=
  ops.foldl runOp d

/-- Every workspace's app list is free of repeated values. -/
def appsNodup (d : Doc) : Prop :=
  ∀ w ∈ d.workspaces, w.apps.Nodup

instance (d : Doc) : Decidable (appsNodup d) := by
  unfold appsNodup; infer_instance

/-- The seed list a `create` operation passes in is duplicate-free (always
true of `add`, `remove` and `delete`). -/
def createSeedOk : Op → Bool
  | .create _ (some csv) => decide (parseApps csv).Nodup
  | _ => true

/-- First-occurrence deduplication relative to an already-seen list: the
elements of the input not in `seen`, first occurrences only, in order. -/
def dedupFirstAux (seen : List String) : List String → List String
  | [] => []
  | a :: as => if a ∈ seen then dedupFirstAux seen as else a :: dedupFirstAux (a :: seen) as

/-- Spec-side description of what `add` appends: the parsed apps not already
present in the current list, first occurrences only, in input order. -/
def newApps (cur parsed : List String) : List String :=
  dedupFirstAux [] (parsed.filter (fun a => decide (a ∉ cur)))

/-! ### Lemmas: first-occurrence deduplication and the add loop -/

theorem dedupFirstAux_congr (l : List String) :
    ∀ s₁ s₂, (∀ x, x ∈ s₁ ↔ x ∈ s₂) → dedupFirstAux s₁ l = dedupFirstAux s₂ l := by
  induction l with
  | nil => intro s₁ s₂ _; rfl
  | cons a as ih =>
    intro s₁ s₂ h
    by_cases ha : a ∈ s₁
    · have ha₂ : a ∈ s₂ := (h a).mp ha
      simp only [dedupFirstAux, if_pos ha, if_pos ha₂]
      exact ih s₁ s₂ h
    · have ha₂ : a ∉ s₂ := fun m => ha ((h a).mpr m)
      simp only [dedupFirstAux, if_neg ha, if_neg ha₂]
      refine congrArg (a :: ·) (ih (a :: s₁) (a :: s₂) ?_)
      intro x
      simp only [List.mem_cons]
      exact or_congr Iff.rfl (h x)

theorem mem_dedupFirstAux (l : List String) :
    ∀ seen x, x ∈ dedupFirstAux seen l → x ∉ seen ∧ x ∈ l := by
  induction l with
  | nil => intro seen x hx; cases hx
  | cons a as ih =>
    intro seen x hx
    by_cases ha : a ∈ seen
    · simp only [dedupFirstAux, if_pos ha] at hx
      obtain ⟨h₁, h₂⟩ := ih seen x hx
      exact ⟨h₁, List.mem_cons_of_mem a h₂⟩
    · simp only [dedupFirstAux, if_neg ha] at hx
      rcases List.mem_cons.mp hx with rfl | hx
      · exact ⟨ha, List.mem_cons_self x as⟩
      · obtain ⟨h₁, h₂⟩ := ih (a :: seen) x hx
        exact ⟨fun m => h₁ (List.mem_cons_of_mem a m), List.mem_cons_of_mem a h₂⟩

theorem nodup_dedupFirstAux (l : List String) :
    ∀ seen, (dedupFirstAux seen l).Nodup := by
  induction l with
  | nil => intro seen; exact List.nodup_nil
  | cons a as ih =>
    intro seen
    by_cases ha : a ∈ seen
    · simp only [dedupFirstAux, if_pos ha]; exact ih seen
    · simp only [dedupFirstAux, if_neg ha]
      refine List.nodup_cons.mpr ⟨fun hmem => ?_, ih (a :: seen)⟩
      exact (mem_dedupFirstAux as (a :: seen) a hmem).1 (List.mem_cons_self a seen)

theorem dedupFirstAux_eq_filter (l : List String) :
    ∀ seen cur, dedupFirstAux (seen ++ cur) l
      = dedupFirstAux seen (l.filter (fun a => decide (a ∉ cur))) := by
  induction l with
  | nil => intro seen cur; rfl
  | cons a as ih =>
    intro seen cur
    by_cases hac : a ∈ cur
    · have hmem : a ∈ seen ++ cur := List.mem_append_right seen hac
      have hfil : (a :: as).filter (fun a => decide (a ∉ cur))
          = as.filter (fun a => decide (a ∉ cur)) := by
        simp [List.filter_cons, hac]
      rw [hfil]
      simp only [dedupFirstAux, if_pos hmem]
      exact ih seen cur
    · have hfil : (a :: as).filter (fun a => decide (a ∉ cur))
          = a :: as.filter (fun a => decide (a ∉ cur)) := by
        simp [List.filter_cons, hac]
      rw [hfil]
      by_cases has : a ∈ seen
      · have hmem : a ∈ seen ++ cur := List.mem_append_left cur has
        simp only [dedupFirstAux, if_pos hmem, if_pos has]
        exact ih seen cur
      · have hmem : a ∉ seen ++ cur := by
          intro hm
          rcases List.mem_append.mp hm with h | h
          · exact has h
          · exact hac h
        simp only [dedupFirstAux, if_neg hmem, if_neg has]
        exact congrArg (a :: ·) (ih (a :: seen) cur)

theorem addLoop_eq (l : List String) :
    ∀ cur, addLoop cur l = (cur ++ dedupFirstAux cur l, dedupFirstAux cur l) := by
  induction l with
  | nil => intro cur; simp [addLoop, dedupFirstAux]
  | cons a as ih =>
    intro cur
    by_cases ha : a ∈ cur
    · simp only [addLoop, if_pos ha, dedupFirstAux]
      exact ih cur
    · have hseen : dedupFirstAux (cur ++ [a]) as = dedupFirstAux (a :: cur) as := by
        refine dedupFirstAux_congr as (cur ++ [a]) (a :: cur) ?_
        intro x
        constructor
        · intro hx
          rcases List.mem_append.mp hx with hx | hx
          · exact List.mem_cons_of_mem a hx
          · rcases List.mem_singleton.mp hx with rfl
            exact List.mem_cons_self x cur
        · intro hx
          rcases List.mem_cons.mp hx with rfl | hx
          · exact List.mem_append_right cur (List.mem_singleton_self x)
          · exact List.mem_append_left [a] hx
      simp only [addLoop, if_neg ha, dedupFirstAux, ih (cur ++ [a]), hseen,
        List.append_assoc, List.singleton_append]

/-! ### Lemmas: `list.remove` and the remove loop -/

theorem pyRemove_append {α : Type} [DecidableEq α] (x : α) :
    ∀ l₁ l₂ : List α, x ∉ l₁ → pyRemove (l₁ ++ x :: l₂) x = l₁ ++ l₂ := by
  intro l₁
  induction l₁ with
  | nil => intro l₂ _; simp [pyRemove]
  | cons y ys ih =>
    intro l₂ hx
    have hyx : y ≠ x := fun h => hx (h ▸ List.mem_cons_self y ys)
    simp only [List.cons_append, pyRemove, if_neg hyx]
    exact congrArg (y :: ·) (ih l₂ (fun h => hx (List.mem_cons_of_mem y h)))

theorem pyRemove_sublist {α : Type} [DecidableEq α] (x : α) :
    ∀ l : List α, List.Sublist (pyRemove l x) l := by
  intro l
  induction l with
  | nil => exact List.Sublist.refl []
  | cons y ys ih =>
    by_cases hyx : y = x
    · simp only [pyRemove, if_pos hyx]
      exact (List.Sublist.refl ys).cons y
    · simp only [pyRemove, if_neg hyx]
      exact ih.cons₂ y

theorem removeLoop_fst_sublist (l : List String) :
    ∀ cur, List.Sublist (removeLoop cur l).1 cur := by
  induction l with
  | nil => intro cur; exact List.Sublist.refl cur
  | cons a as ih =>
    intro cur
    by_cases ha : a ∈ cur
    · simp only [removeLoop, if_pos ha]
      exact (ih (pyRemove cur a)).trans (pyRemove_sublist a cur)
    · simp only [removeLoop, if_neg ha]
      exact ih cur

theorem removeLoop_restore (l : List String) :
    ∀ cur seen, (∀ x ∈ l, x ∉ cur) →
      (removeLoop (cur ++ dedupFirstAux seen l) l).1 = cur := by
  induction l with
  | nil => intro cur seen _; simp [removeLoop, dedupFirstAux]
  | cons a as ih =>
    intro cur seen h
    have hac : a ∉ cur := h a (List.mem_cons_self a as)
    by_cases has : a ∈ seen
    · have hnot : a ∉ cur ++ dedupFirstAux seen (a :: as) := by
        intro hm
        rcases List.mem_append.mp hm with hm | hm
        · exact hac hm
        · simp only [dedupFirstAux, if_pos has] at hm
          exact (mem_dedupFirstAux as seen a hm).1 has
      simp only [dedupFirstAux, if_pos has] at hnot ⊢
      simp only [removeLoop, if_neg hnot]
      exact ih cur seen (fun x hx => h x (List.mem_cons_of_mem a hx))
    · have hd : dedupFirstAux seen (a :: as) = a :: dedupFirstAux (a :: seen) as := by
        simp [dedupFirstAux, if_neg has]
      rw [hd]
      have hmem : a ∈ cur ++ a :: dedupFirstAux (a :: seen) as :=
        List.mem_append_right cur (List.mem_cons_self a _)
      simp only [removeLoop, if_pos hmem]
      rw [pyRemove_append a cur (dedupFirstAux (a :: seen) as) hac]
      exact ih cur (a :: seen) (fun x hx => h x (List.mem_cons_of_mem a hx))

/-! ### Lemmas: `find_workspace` and `updateWs` -/

theorem find_workspace_some {n : String} {w : Workspace} :
    ∀ {ws : List Workspace}, find_workspace ws n = some w → w.name = n ∧ w ∈ ws := by
  intro ws
  induction ws with
  | nil => intro h; cases h
  | cons u us ih =>
    intro h
    by_cases hu : u.name = n
    · simp only [find_workspace, if_pos hu] at h
      cases h
      exact ⟨hu, List.mem_cons_self _ _⟩
    · simp only [find_workspace, if_neg hu] at h
      obtain ⟨h₁, h₂⟩ := ih h
      exact ⟨h₁, List.mem_cons_of_mem u h₂⟩

theorem find_workspace_none {ws : List Workspace} {n : String} :
    find_workspace ws n = none ↔ ∀ w ∈ ws, w.name ≠ n := by
  induction ws with
  | nil => simp [find_workspace]
  | cons u us ih =>
    by_cases hu : u.name = n
    · simp [find_workspace, if_pos hu, hu]
    · simp [find_workspace, if_neg hu, ih, hu]

theorem find_workspace_append {n : String} {w : Workspace} (hw : w.name = n) :
    ∀ l₁ l₂, (∀ u ∈ l₁, u.name ≠ n) → find_workspace (l₁ ++ w :: l₂) n = some w := by
  intro l₁
  induction l₁ with
  | nil => intro l₂ _; simp [find_workspace, if_pos hw]
  | cons u us ih =>
    intro l₂ h
    have hu : u.name ≠ n := h u (List.mem_cons_self u us)
    simp only [List.cons_append, find_workspace, if_neg hu]
    exact ih l₂ (fun v hv => h v (List.mem_cons_of_mem u hv))

theorem find_updateWs (n : String) (f : List String → List String) :
    ∀ ws, find_workspace (updateWs n f ws) n
      = (find_workspace ws n).map (fun w => { w with apps := f w.apps }) := by
  intro ws
  induction ws with
  | nil => rfl
  | cons u us ih =>
    by_cases hu : u.name = n
    · simp [updateWs, if_pos hu, find_workspace, hu]
    · simp [updateWs, if_neg hu, find_workspace, hu, ih]

theorem updateWs_const_updateWs (n : String) (v : List String)
    (f : List String → List String) :
    ∀ ws, updateWs n (fun _ => v) (updateWs n f ws) = updateWs n (fun _ => v) ws := by
  intro ws
  induction ws with
  | nil => rfl
  | cons u us ih =>
    by_cases hu : u.name = n
    · simp [updateWs, if_pos hu, hu]
    · simp [updateWs, if_neg hu, hu, ih]

theorem updateWs_eq_self {n : String} {f : List String → List String} :
    ∀ {ws w}, find_workspace ws n = some w → f w.apps = w.apps →
      updateWs n f ws = ws := by
  intro ws
  induction ws with
  | nil => intro w h _; cases h
  | cons u us ih =>
    intro w hfind hfix
    by_cases hu : u.name = n
    · simp only [find_workspace, if_pos hu] at hfind
      cases hfind
      simp only [updateWs, if_pos hu, hfix]
    · simp only [find_workspace, if_neg hu] at hfind
      simp only [updateWs, if_neg hu, ih hfind hfix]

theorem updateWs_congr {n : String} {f g : List String → List String} :
    ∀ {ws w}, find_workspace ws n = some w → f w.apps = g w.apps →
      updateWs n f ws = updateWs n g ws := by
  intro ws
  induction ws with
  | nil => intro w h _; cases h
  | cons u us ih =>
    intro w hfind hfg
    by_cases hu : u.name = n
    · simp only [find_workspace, if_pos hu] at hfind
      cases hfind
      simp only [updateWs, if_pos hu, hfg]
    · simp only [find_workspace, if_neg hu] at hfind
      simp only [updateWs, if_neg hu, ih hfind hfg]

theorem updateWs_forall {P : Workspace → Prop} {n : String}
    {f : List String → List String} :
    ∀ {ws}, (∀ u ∈ ws, P u) → (∀ u ∈ ws, u.name = n → P { u with apps := f u.apps }) →
      ∀ u ∈ updateWs n f ws, P u := by
  intro ws
  induction ws with
  | nil => intro _ _ u hu; cases hu
  | cons v vs ih =>
    intro hall hupd u hu
    by_cases hv : v.name = n
    · simp only [updateWs, if_pos hv] at hu
      rcases List.mem_cons.mp hu with rfl | hu
      · exact hupd v (List.mem_cons_self v vs) hv
      · exact hall u (List.mem_cons_of_mem v hu)
    · simp only [updateWs, if_neg hv] at hu
      rcases List.mem_cons.mp hu with rfl | hu
      · exact hall u (List.mem_cons_self u vs)
      · exact ih (fun x hx => hall x (List.mem_cons_of_mem v hx))
          (fun x hx hn => hupd x (List.mem_cons_of_mem v hx) hn) u hu

/-! ### Lemmas: the open loop -/

theorem openLoop_attempts (installed : List String) (launch : Nat → Bool) :
    ∀ (apps : List String) (i : Nat), (openLoop installed launch i apps).attempts = apps := by
  intro apps
  induction apps with
  | nil => intro i; rfl
  | cons app rest ih =>
    intro i
    simp only [openLoop]
    exact congrArg (app :: ·) (ih (i + 1))

/-! ### Lemmas: JSON round trip -/

theorem decodeStrings_map (l : List String) :
    decodeStrings (l.map Json.str) = some l := by
  induction l with
  | nil => rfl
  | cons s ss ih => simp [decodeStrings, jsonStr, ih]

theorem wsFromJson_wsToJson (w : Workspace) : wsFromJson (wsToJson w) = some w := by
  have hname : jsonLookup [("name", Json.str w.name),
      ("apps", Json.arr (w.apps.map Json.str))] "name" = some (Json.str w.name) := rfl
  have happs : jsonLookup [("name", Json.str w.name),
      ("apps", Json.arr (w.apps.map Json.str))] "apps"
      = some (Json.arr (w.apps.map Json.str)) := rfl
  simp [wsFromJson, wsToJson, hname, happs, decodeStrings_map]

theorem decodeWorkspaces_map (l : List Workspace) :
    decodeWorkspaces (l.map wsToJson) = some l := by
  induction l with
  | nil => rfl
  | cons w ws ih => simp [decodeWorkspaces, wsFromJson_wsToJson, ih]

theorem docFromJson_docToJson (d : Doc) : docFromJson (docToJson d) = some d := by
  have hws : jsonLookup [("workspaces", Json.arr (d.workspaces.map wsToJson))]
      "workspaces" = some (Json.arr (d.workspaces.map wsToJson)) := rfl
  simp [docFromJson, docToJson, hws, decodeWorkspaces_map]

/-! ### Lemmas: CSV parsing -/

theorem filterMap_strip (l : List String) :
    l.filterMap (fun a => if pyStrip a = "" then none else some (pyStrip a))
      = (l.map pyStrip).filter (fun t => t ≠ "") := by
  induction l with
  | nil => rfl
  | cons a as ih =>
    by_cases h : pyStrip a = ""
    · simp [List.filterMap_cons, List.filter_cons, h, ih]
    · simp [List.filterMap_cons, List.filter_cons, h, ih]

theorem splitChar_mem (sep : Char) :
    ∀ l part, part ∈ splitChar sep l → ∀ c ∈ part, c ∈ l ∧ c ≠ sep := by
  intro l
  induction l with
  | nil =>
    intro part hp c hc
    simp only [splitChar, List.mem_singleton] at hp
    subst hp
    cases hc
  | cons b bs ih =>
    intro part hp c hc
    cases hsp : splitChar sep bs with
    | nil =>
      rw [splitChar, hsp] at hp
      by_cases hb : b = sep
      · simp only [if_pos hb] at hp
        rcases List.mem_cons.mp hp with rfl | hp
        · cases hc
        · rcases List.mem_singleton.mp hp with rfl
          cases hc
      · simp only [if_neg hb] at hp
        rcases List.mem_singleton.mp hp with rfl
        rcases List.mem_singleton.mp hc with rfl
        exact ⟨List.mem_cons_self _ _, hb⟩
    | cons p ps =>
      rw [splitChar, hsp] at hp
      by_cases hb : b = sep
      · simp only [if_pos hb] at hp
        rcases List.mem_cons.mp hp with rfl | hp
        · cases hc
        · have : part ∈ splitChar sep bs := hsp ▸ hp
          obtain ⟨h₁, h₂⟩ := ih part this c hc
          exact ⟨List.mem_cons_of_mem b h₁, h₂⟩
      · simp only [if_neg hb] at hp
        rcases List.mem_cons.mp hp with rfl | hp
        · rcases List.mem_cons.mp hc with rfl | hc
          · exact ⟨List.mem_cons_self _ _, hb⟩
          · have : p ∈ splitChar sep bs := hsp ▸ List.mem_cons_self p ps
            obtain ⟨h₁, h₂⟩ := ih p this c hc
            exact ⟨List.mem_cons_of_mem b h₁, h₂⟩
        · have : part ∈ splitChar sep bs := hsp ▸ List.mem_cons_of_mem p hp
          obtain ⟨h₁, h₂⟩ := ih part this c hc
          exact ⟨List.mem_cons_of_mem b h₁, h₂⟩

theorem stripChars_all_space {part : List Char}
    (h : ∀ c ∈ part, isPySpace c = true) : stripChars part = [] := by
  have hdrop : part.dropWhile isPySpace = [] := by
    induction part with
    | nil => rfl
    | cons c cs ih =>
      rw [List.dropWhile_cons]
      simp only [h c (List.mem_cons_self c cs), if_true]
      exact ih (fun x hx => h x (List.mem_cons_of_mem c hx))
  simp [stripChars, hdrop]

/-! ### Lemmas: preservation of the no-duplicates invariant -/

theorem appsNodup_create {d : Doc} {n : String} {csv : Option String}
    {inst : List String} (h : appsNodup d)
    (hseed : createSeedOk (Op.create n csv) = true) :
    appsNodup (cmd_create d n csv inst).doc := by
  cases hf : find_workspace d.workspaces n with
  | some w => simpa [cmd_create, hf] using h
  | none =>
    simp only [cmd_create, hf]
    intro u hu
    rcases List.mem_append.mp hu with hu | hu
    · exact h u hu
    · rcases List.mem_singleton.mp hu with rfl
      cases csv with
      | none => exact List.nodup_nil
      | some s =>
        by_cases hs : s = ""
        · simp [hs]
        · simp only [if_neg hs]
          simp only [createSeedOk] at hseed
          exact of_decide_eq_true hseed

theorem appsNodup_add {d : Doc} {n : String} {csv : String} (h : appsNodup d) :
    appsNodup (cmd_add d n csv).doc := by
  cases hf : find_workspace d.workspaces n with
  | none => simpa [cmd_add, hf] using h
  | some w =>
    simp only [cmd_add, hf]
    have hw : w.apps.Nodup := h w (find_workspace_some hf).2
    refine updateWs_forall h ?_
    intro u _ _
    show ((addLoop w.apps (parseApps csv)).1).Nodup
    rw [addLoop_eq]
    exact hw.append (nodup_dedupFirstAux _ _)
      (fun a ha hd => (mem_dedupFirstAux _ _ a hd).1 ha)

theorem appsNodup_remove {d : Doc} {n : String} {csv : String} (h : appsNodup d) :
    appsNodup (cmd_remove d n csv).doc := by
  cases hf : find_workspace d.workspaces n with
  | none => simpa [cmd_remove, hf] using h
  | some w =>
    simp only [cmd_remove, hf]
    have hw : w.apps.Nodup := h w (find_workspace_some hf).2
    refine updateWs_forall h ?_
    intro u _ _
    show ((removeLoop w.apps (parseApps csv)).1).Nodup
    exact List.Nodup.sublist (removeLoop_fst_sublist (parseApps csv) w.apps) hw

theorem appsNodup_delete {d : Doc} {n : String} (h : appsNodup d) :
    appsNodup (cmd_delete d n).doc := by
  cases hf : find_workspace d.workspaces n with
  | none => simpa [cmd_delete, hf] using h
  | some w =>
    simp only [cmd_delete, hf]
    intro u hu
    exact h u ((pyRemove_sublist w d.workspaces).subset hu)

theorem appsNodup_runOps :
    ∀ (ops : List Op) (d : Doc), appsNodup d →
      (∀ op ∈ ops, createSeedOk op = true) → appsNodup (runOps d ops) := by
  intro ops
  induction ops with
  | nil => intro d h _; exact h
  | cons op ops ih =>
    intro d h hok
    have hstep : appsNodup (runOp d op) := by
      cases op with
      | create n csv => exact appsNodup_create h (hok _ (List.mem_cons_self _ _))
      | add n csv => exact appsNodup_add h
      | remove n csv => exact appsNodup_remove h
      | del n => exact appsNodup_delete h
    exact ih (runOp d op) hstep (fun o ho => hok o (List.mem_cons_of_mem op ho))

theorem dedupFirstAux_eq_newApps (cur l : List String) :
    dedupFirstAux cur l = newApps cur l := by
  have h := dedupFirstAux_eq_filter l [] cur
  simpa [newApps] using h

theorem parseApps_all_sep_space {s : String}
    (h : ∀ c ∈ s.toList, c = ',' ∨ isPySpace c = true) : parseApps s = [] := by
  unfold parseApps pySplit
  rw [List.filterMap_eq_nil_iff]
  intro a ha
  obtain ⟨part, hpart, rfl⟩ := List.mem_map.mp ha
  have hall : ∀ c ∈ part, isPySpace c = true := by
    intro c hc
    obtain ⟨hmem, hne⟩ := splitChar_mem ',' s.toList part hpart c hc
    rcases h c hmem with hcomma | hspace
    · exact absurd hcomma hne
    · exact hspace
  have hstrip : pyStrip ⟨part⟩ = "" := by
    show (⟨stripChars part⟩ : String) = ""
    rw [stripChars_all_space hall]
  simp [hstrip]

/-! ### Claims -/

/-- C1, counterexample: for the document whose single workspace `W` has apps
`["A"]` and the CSV `"A"`, `add` appends nothing (already present) but
`remove` deletes `A`, so add-then-remove of the identical list does not
return the workspace to its prior app list. -/
theorem c1_add_remove_cex :
    (cmd_remove (cmd_add ⟨[⟨"W", ["A"]⟩]⟩ "W" "A").doc "W" "A").doc = ⟨[⟨"W", []⟩]⟩ ∧
    (⟨[⟨"W", []⟩]⟩ : Doc) ≠ ⟨[⟨"W", ["A"]⟩]⟩ := by decide

/-- C1, amended: when no parsed app of the CSV is already present in the
workspace named `n`, `addApps` followed by `removeApps` with the identical
CSV restores the whole document (hence workspace `n`'s app list) exactly. -/
theorem c1_add_then_remove_restores (doc : Doc) (n csv : String) (w : Workspace)
    (hf : find_workspace doc.workspaces n = some w)
    (hnew : ∀ a ∈ parseApps csv, a ∉ w.apps) :
    (cmd_remove (cmd_add doc n csv).doc n csv).doc = doc := by
  have hadd : (cmd_add doc n csv).doc
      = ⟨updateWs n (fun _ => w.apps ++ dedupFirstAux w.apps (parseApps csv))
          doc.workspaces⟩ := by
    simp [cmd_add, hf, addLoop_eq]
  rw [hadd]
  have hfind2 : find_workspace
      (updateWs n (fun _ => w.apps ++ dedupFirstAux w.apps (parseApps csv))
        doc.workspaces) n
      = some { w with apps := w.apps ++ dedupFirstAux w.apps (parseApps csv) } := by
    rw [find_updateWs, hf]
    rfl
  have hr1 : (removeLoop (w.apps ++ dedupFirstAux w.apps (parseApps csv))
      (parseApps csv)).1 = w.apps :=
    removeLoop_restore (parseApps csv) w.apps w.apps hnew
  simp only [cmd_remove, hfind2]
  simp only [hr1]
  rw [updateWs_const_updateWs, updateWs_eq_self hf rfl]

/-- C1, amended, witness at a concrete input: workspace `W` holds `["A"]`,
the CSV parses to `["B", "C"]`, none already present. -/
theorem c1_add_then_remove_restores_witness :
    (cmd_remove (cmd_add ⟨[⟨"W", ["A"]⟩]⟩ "W" "B, C").doc "W" "B, C").doc
      = ⟨[⟨"W", ["A"]⟩]⟩ :=
  c1_add_then_remove_restores ⟨[⟨"W", ["A"]⟩]⟩ "W" "B, C" ⟨"W", ["A"]⟩
    (by decide) (by decide)

/-- C2, counterexample: `create` does not deduplicate its CSV seed, so
creating workspace `W` with `--apps "A,A"` from the empty document yields an
apps list with a repeated value. -/
theorem c2_create_duplicate_apps_cex :
    (cmd_create emptyDoc "W" (some "A,A") []).doc = ⟨[⟨"W", ["A", "A"]⟩]⟩ ∧
    ¬ appsNodup ⟨[⟨"W", ["A", "A"]⟩]⟩ := by decide

/-- C2, amended: for every operation sequence from the empty document in
which each `create`'s CSV parses to a duplicate-free list, every workspace
of the resulting document has a duplicate-free apps list (`add`, `remove`
and `delete` preserve the invariant unconditionally; only `create`'s seed
can inject duplicates). -/
theorem c2_nodup_invariant (ops : List Op)
    (hseeds : ∀ op ∈ ops, createSeedOk op = true) :
    appsNodup (runOps emptyDoc ops) :=
  appsNodup_runOps ops emptyDoc (fun w hw => absurd hw (List.not_mem_nil w)) hseeds

/-- C2, amended, witness on a concrete operation sequence. -/
theorem c2_nodup_invariant_witness :
    appsNodup (runOps emptyDoc
      [Op.create "W" (some "A, B"), Op.add "W" "C,A", Op.remove "W" "B",
        Op.del "X"]) :=
  c2_nodup_invariant _ (by decide)

/-- C3: when a workspace named `n` already exists, `create` reports the
duplicate, does not change the document, and never calls `save_data`. -/
theorem c3_create_existing_no_mutation (doc : Doc) (n : String)
    (csv : Option String) (installed : List String) (w : Workspace)
    (hf : find_workspace doc.workspaces n = some w) :
    cmd_create doc n csv installed = ⟨doc, false, [Msg.alreadyExists n]⟩ := by
  simp [cmd_create, hf]

/-- C3, witness at a concrete input. -/
theorem c3_create_existing_no_mutation_witness :
    cmd_create ⟨[⟨"W", ["A"]⟩]⟩ "W" (some "B") ["X"]
      = ⟨⟨[⟨"W", ["A"]⟩]⟩, false, [Msg.alreadyExists "W"]⟩ :=
  c3_create_existing_no_mutation ⟨[⟨"W", ["A"]⟩]⟩ "W" (some "B") ["X"]
    ⟨"W", ["A"]⟩ (by decide)

/-- C4: for any discovery result and any sequence of Launcher outcomes,
`open` on a workspace with a non-empty app list passes exactly the
workspace's apps, in list order, to the Launcher: membership in the
discovered set never gates an attempt and a failure never skips the next
app. -/
theorem c4_open_attempts_all (doc : Doc) (n : String) (installed : List String)
    (launch : Nat → Bool) (w : Workspace)
    (hf : find_workspace doc.workspaces n = some w) (hne : w.apps ≠ []) :
    (cmd_open doc n installed launch).attempts = w.apps := by
  have hemp : w.apps.isEmpty = false := by
    cases happ : w.apps with
    | nil => exact absurd happ hne
    | cons a as => rfl
  simp [cmd_open, hf, hemp, openLoop_attempts]

/-- C4, witness: apps `["A", "B"]`, discovery reports only `["A"]`, and the
second launch fails; both apps are still attempted, in order. -/
theorem c4_open_attempts_all_witness :
    (cmd_open ⟨[⟨"W", ["A", "B"]⟩]⟩ "W" ["A"] (fun i => decide (i = 0))).attempts
      = ["A", "B"] ∧
    (cmd_open ⟨[⟨"W", ["A", "B"]⟩]⟩ "W" ["A"] (fun i => decide (i = 0))).out
      = [Msg.openingWorkspace "W", Msg.opening "A", Msg.attempting "B",
          Msg.couldNotOpen "B"] :=
  ⟨c4_open_attempts_all ⟨[⟨"W", ["A", "B"]⟩]⟩ "W" ["A"] (fun i => decide (i = 0))
      ⟨"W", ["A", "B"]⟩ (by decide) (by decide),
    by decide⟩

/-- C5: `save_data` then `load_data` (with the shape decoding the commands
apply to the parsed value) returns exactly the saved document, for every
document — zero, one or many workspaces, empty app lists included — and
leaves the file as `save_data` wrote it. -/
theorem c5_save_load_roundtrip (d : Doc) (fs : FS) :
    loadDoc (save_data d fs) = (save_data d fs, Except.ok d) := by
  simp [loadDoc, load_data, save_data, ensure_config, docFromJson_docToJson]

/-- C6: the app-list parse shared by create/add/remove equals the spec's
description — split on commas, trim each entry, drop entries empty after
trimming, keep the original order — and an input of only commas and
whitespace parses to the empty list. -/
theorem c6_parse_csv (s : String) :
    parseApps s = specParseApps s ∧
      ((∀ c ∈ s.toList, c = ',' ∨ isPySpace c = true) → parseApps s = []) :=
  ⟨filterMap_strip (pySplit s), fun h => parseApps_all_sep_space h⟩

/-- C6, witness at concrete inputs, including a commas-and-whitespace-only
string. -/
theorem c6_parse_csv_witness :
    parseApps " ,, , " = specParseApps " ,, , " ∧ parseApps " ,, , " = [] :=
  ⟨(c6_parse_csv " ,, , ").1, (c6_parse_csv " ,, , ").2 (by decide)⟩

/-- C7: `addApps` appends to workspace `n`, at the end, exactly the parsed
apps not already present (first occurrences, input order — `newApps`),
leaving every other workspace unchanged; it reports exactly the appended
apps, and when every parsed app is already present the document is
unchanged and zero additions are reported. -/
theorem c7_add_characterization (doc : Doc) (n csv : String) (w : Workspace)
    (hf : find_workspace doc.workspaces n = some w) :
    (cmd_add doc n csv).doc.workspaces
        = updateWs n (fun apps => apps ++ newApps w.apps (parseApps csv))
            doc.workspaces
    ∧ (cmd_add doc n csv).out
        = [if (newApps w.apps (parseApps csv)).isEmpty then Msg.noNewApps
            else Msg.addedApps (newApps w.apps (parseApps csv))]
    ∧ ((∀ a ∈ parseApps csv, a ∈ w.apps) →
        (cmd_add doc n csv).doc = doc ∧ (cmd_add doc n csv).out = [Msg.noNewApps]) := by
  have hd : dedupFirstAux w.apps (parseApps csv) = newApps w.apps (parseApps csv) :=
    dedupFirstAux_eq_newApps _ _
  have h1 : (cmd_add doc n csv).doc.workspaces
      = updateWs n (fun apps => apps ++ newApps w.apps (parseApps csv))
          doc.workspaces := by
    simp only [cmd_add, hf, addLoop_eq, hd]
    exact updateWs_congr hf rfl
  have h2 : (cmd_add doc n csv).out
      = [if (newApps w.apps (parseApps csv)).isEmpty then Msg.noNewApps
          else Msg.addedApps (newApps w.apps (parseApps csv))] := by
    simp only [cmd_add, hf, addLoop_eq, hd]
  refine ⟨h1, h2, fun hall => ?_⟩
  have hfil : (parseApps csv).filter (fun a => decide (a ∉ w.apps)) = [] := by
    rw [List.filter_eq_nil_iff]
    intro a ha
    simp [hall a ha]
  have hnew : newApps w.apps (parseApps csv) = [] := by
    unfold newApps
    rw [hfil]
    rfl
  constructor
  · have hws : (cmd_add doc n csv).doc.workspaces = doc.workspaces := by
      rw [h1]
      simp only [hnew, List.append_nil]
      exact updateWs_eq_self hf rfl
    calc (cmd_add doc n csv).doc = ⟨(cmd_add doc n csv).doc.workspaces⟩ := rfl
      _ = ⟨doc.workspaces⟩ := by rw [hws]
      _ = doc := rfl
  · rw [h2, hnew]
    rfl

/-- C7, witness: workspace `W` holds `["A"]`, CSV `"B,A,B"`; only `B` is
appended, once, and reported. -/
theorem c7_add_characterization_witness :
    (cmd_add ⟨[⟨"W", ["A"]⟩]⟩ "W" "B,A,B").doc.workspaces = [⟨"W", ["A", "B"]⟩] ∧
    (cmd_add ⟨[⟨"W", ["A"]⟩]⟩ "W" "B,A,B").out = [Msg.addedApps ["B"]] := by
  have h := c7_add_characterization ⟨[⟨"W", ["A"]⟩]⟩ "W" "B,A,B" ⟨"W", ["A"]⟩
    (by decide)
  constructor
  · rw [h.1]; decide
  · rw [h.2.1]; decide

/-- C8: `delete` removes exactly the (first) workspace named `n`, leaving
every other workspace unchanged in relative order, and saves; when no
workspace is named `n` it reports not-found, does not save, and leaves the
document unchanged. -/
theorem c8_delete_exact (doc : Doc) (n : String) :
    (∀ l₁ (w : Workspace) l₂, doc.workspaces = l₁ ++ w :: l₂ →
        (∀ u ∈ l₁, u.name ≠ n) → w.name = n →
        (cmd_delete doc n).doc.workspaces = l₁ ++ l₂ ∧
        (cmd_delete doc n).saved = true ∧
        (cmd_delete doc n).out = [Msg.deleted n]) ∧
    (find_workspace doc.workspaces n = none →
        cmd_delete doc n = ⟨doc, false, [Msg.wsNotFound n]⟩) := by
  constructor
  · intro l₁ w l₂ hsplit hl₁ hw
    have hf : find_workspace doc.workspaces n = some w := by
      rw [hsplit]
      exact find_workspace_append hw l₁ l₂ hl₁
    have hwnot : w ∉ l₁ := fun hm => hl₁ w hm hw
    have hrem : pyRemove doc.workspaces w = l₁ ++ l₂ := by
      rw [hsplit]
      exact pyRemove_append w l₁ l₂ hwnot
    refine ⟨?_, ?_, ?_⟩ <;> simp [cmd_delete, hf, hrem]
  · intro hf
    simp [cmd_delete, hf]

/-- C8, witness: deleting `W` from `[X, W, Y]` leaves `[X, Y]` in order. -/
theorem c8_delete_exact_witness :
    (cmd_delete ⟨[⟨"X", []⟩, ⟨"W", ["A"]⟩, ⟨"Y", ["B"]⟩]⟩ "W").doc.workspaces
      = [⟨"X", []⟩, ⟨"Y", ["B"]⟩] ∧
    (cmd_delete ⟨[⟨"X", []⟩, ⟨"W", ["A"]⟩, ⟨"Y", ["B"]⟩]⟩ "W").saved = true :=
  have h := (c8_delete_exact ⟨[⟨"X", []⟩, ⟨"W", ["A"]⟩, ⟨"Y", ["B"]⟩]⟩ "W").1
    [⟨"X", []⟩] ⟨"W", ["A"]⟩ [⟨"Y", ["B"]⟩] rfl (by decide) rfl
  ⟨h.1, h.2.1⟩

/-- C9: `load_data` on a file whose content the JSON parser rejects
propagates the deserialization error — the result is an error and the file
is not repaired or rewritten — while on parsable content it returns the
parsed value, file untouched. -/
theorem c9_load_error_propagation (raw : String) (j : Json) :
    load_data (some (FileContent.invalid raw))
        = (some (FileContent.invalid raw), Except.error "json decode error") ∧
    load_data (some (FileContent.valid j))
        = (some (FileContent.valid j), Except.ok j) :=
  ⟨rfl, rfl⟩

/-- C10: whenever the named workspace exists, `add` and `remove` invoke
`save_data` unconditionally — also when the parsed CSV adds or removes
nothing and the document is unchanged. -/
theorem c10_add_remove_always_save (doc : Doc) (n csv : String) (w : Workspace)
    (hf : find_workspace doc.workspaces n = some w) :
    (cmd_add doc n csv).saved = true ∧ (cmd_remove doc n csv).saved = true := by
  constructor <;> simp [cmd_add, cmd_remove, hf]

/-- C10, witness: `add` of an app already present and `remove` of an absent
app both leave the document unchanged yet still save. -/
theorem c10_add_remove_always_save_witness :
    ((cmd_add ⟨[⟨"W", ["A"]⟩]⟩ "W" "A").saved = true ∧
      (cmd_remove ⟨[⟨"W", ["A"]⟩]⟩ "W" "Z").saved = true) ∧
    (cmd_add ⟨[⟨"W", ["A"]⟩]⟩ "W" "A").doc = ⟨[⟨"W", ["A"]⟩]⟩ ∧
    (cmd_remove ⟨[⟨"W", ["A"]⟩]⟩ "W" "Z").doc = ⟨[⟨"W", ["A"]⟩]⟩ := by
  have h1 := c10_add_remove_always_save ⟨[⟨"W", ["A"]⟩]⟩ "W" "A" ⟨"W", ["A"]⟩
    (by decide)
  have h2 := c10_add_remove_always_save ⟨[⟨"W", ["A"]⟩]⟩ "W" "Z" ⟨"W", ["A"]⟩
    (by decide)
  exact ⟨⟨h1.1, h2.2⟩, by decide, by decide⟩

end MacSpace
